import Mathlib

/-!
Verification of the spectrum truth-discovery repository.

The Python sources are shallowly embedded here:
- `src/spectrum/judge/lca.py` (class `simpleLCA_EM` and the shared
  `_build_claim_probs` of `simpleLCA_VI`),
- `src/spectrum/majority.py` (`majority_vote` / `elect`),
- `src/spectrum/judge/lca_tf.py` (class `LCA`).

Numeric values are modelled as rationals (the float computations on the
test fixtures are exact dyadic/small-denominator rationals).  A claims
table is a list of rows.  Pandas structures are modelled as follows:
- `nunique` of a column is the length of the deduplicated column,
- the `(source_id, object_id) -> value` dict built by iterating over the
  rows (later rows overwrite earlier ones) is `get_value`,
- the binarized pivot `weight[s][o]` (1 iff source s made a claim about
  object o; positional indexing coincides with id indexing under the
  dense zero-based id assumption stated in the spec) is `weight`,
- `groupby('object_id').max()['value'] + 1` is `domainSize`.

The EM loop of `discover` mutates numpy arrays in place.  The crucial
point is that `self.theta_old = self.theta_new` is a *reference*
assignment: afterwards both names denote the same array, which
`m_step` keeps mutating in place.  The state therefore carries the two
array objects (`thetaA`, the array initially bound to `theta_old`, and
`thetaB`, the array initially bound to `theta_new` and always written
by `m_step`) together with the flag `oldIsB` recording whether the name
`theta_old` has been rebound to the `thetaB` object.
-/

/-- One row of a claims table: a `(source_id, object_id, value)` assertion. -/
structure Claim where
  source_id : ℕ
  object_id : ℕ
  value : ℕ
deriving DecidableEq, Repr

/-- A claims table (`pd.DataFrame` with columns source_id, object_id, value). -/
abbrev Claims := List Claim

/-- `claims.nunique()['source_id']`: the number of distinct source ids. -/
def nSources (c : Claims) : ℕ := (c.map (fun cl => cl.source_id)).dedup.length

/-- `claims.nunique()['object_id']`: the number of distinct object ids. -/
def nObjects (c : Claims) : ℕ := (c.map (fun cl => cl.object_id)).dedup.length

/-- The values asserted about object `o`, in row order. -/
def objectValues (c : Claims) (o : ℕ) : List ℕ :=
  (c.filter (fun cl => cl.object_id == o)).map (fun cl => cl.value)

/-- `self.claims.groupby('object_id').max()['value'] + 1` evaluated at `o`. -/
def domainSize (c : Claims) (o : ℕ) : ℕ :=
  (objectValues c o).foldr max 0 + 1

/-- Entry `[s][o]` of the binarized pivot `W` of `compute_weight_matrix`:
`true` iff source `s` made some claim about object `o`. -/
def weight (c : Claims) (s o : ℕ) : Bool :=
  c.any (fun cl => cl.source_id == s && cl.object_id == o)

/-- `simpleLCA_EM.get_value`: lookup in the `(s_id, o_id) -> v` dict built in
`__init__` by iterating over the rows (a later row overwrites an earlier one
with the same key); `None` (here `none`) when the pair was never observed. -/
def get_value (c : Claims) (s o : ℕ) : Option ℕ :=
  c.foldl
    (fun acc cl =>
      if cl.source_id = s ∧ cl.object_id = o then some cl.value else acc)
    none

/-- The claims table has no duplicate `(source_id, object_id)` pairs (the
pandas pivot in `compute_weight_matrix` raises on duplicates). -/
def noDupPairs (c : Claims) : Prop :=
  (c.map (fun cl => (cl.source_id, cl.object_id))).Nodup

/-- Source and object ids are dense and zero-based (the invariant assumed,
unvalidated, by the source: positional indexing = id indexing). -/
def denseIds (c : Claims) : Prop :=
  ∀ cl ∈ c, cl.source_id < nSources c ∧ cl.object_id < nObjects c

instance (c : Claims) : Decidable (noDupPairs c) := by
  unfold noDupPairs
  infer_instance

instance (c : Claims) : Decidable (denseIds c) := by
  unfold denseIds
  exact List.decidableBAll _ c

/-- The mutable state of a `simpleLCA_EM` instance.  `thetaA` is the array
created as `0.5 * np.ones(n_sources)` and initially bound to the name
`theta_old`; `thetaB` is the array created as `0.99 * np.ones(n_sources)`,
always bound to `theta_new`, and mutated in place by `m_step`.  `oldIsB`
records whether `self.theta_old = self.theta_new` has rebound the name
`theta_old` to the `thetaB` array object. -/
structure EMState where
  claims : Claims
  ns : ℕ
  no : ℕ
  thetaA : List ℚ
  thetaB : List ℚ
  oldIsB : Bool
  prior : List (List ℚ)
  posterior : List (List ℚ)

/-- What the name `self.theta_old` currently denotes. -/
def thetaOld (st : EMState) : List ℚ :=
  if st.oldIsB then st.thetaB else st.thetaA

/-- `simpleLCA_EM.__init__`: bookkeeping structures and initial parameters.
`posterior` starts as an empty dict; `prior[o]` is uniform over the domain. -/
def initState (c : Claims) : EMState :=
  { claims := c
    ns := nSources c
    no := nObjects c
    thetaA := List.replicate (nSources c) ((1 : ℚ)/2)
    thetaB := List.replicate (nSources c) ((99 : ℚ)/100)
    oldIsB := false
    prior := (List.range (nObjects c)).map
      (fun o => List.replicate (domainSize c o) (1 / (domainSize c o : ℚ)))
    posterior := [] }

/-- `simpleLCA_EM.compute_responsibility(o_id, v)`: the running array `resp`
starts as all ones; entry `s` is overwritten only when `weight[s][o]==1`,
with `theta_old[s]` on a value match and `(1-theta_old[s])/domain_size[o]`
otherwise; the result is the product of the entries. -/
def compute_responsibility (st : EMState) (o_id v : ℕ) : ℚ :=
  ((List.range st.ns).map (fun s =>
    if weight st.claims s o_id then
      if get_value st.claims s o_id = some v then (thetaOld st).getD s 0
      else (1 - (thetaOld st).getD s 0) / (domainSize st.claims o_id : ℚ)
    else 1)).prod

/-- `simpleLCA_EM.compute_joint(o_id)`: elementwise product of `prior[o]`
with the responsibility vector. -/
def compute_joint (st : EMState) (o_id : ℕ) : List ℚ :=
  (List.range (domainSize st.claims o_id)).map (fun v =>
    (st.prior.getD o_id []).getD v 0 * compute_responsibility st o_id v)

/-- `simpleLCA_EM.e_step`: for every `o` in `range(n_objects)`,
`posterior[o] = joint / joint.sum()` (each object's entry only reads
`theta_old` and `prior`, so the per-object writes commute). -/
def e_step (st : EMState) : EMState :=
  { st with posterior := (List.range st.no).map (fun o =>
      (compute_joint st o).map (fun x => x / (compute_joint st o).sum)) }

/-- `simpleLCA_EM.compute_honest(s_id)`: `number_of_objects` is the row sum
of the weight matrix; `honest` accumulates `posterior[o][v] * mask` where
`mask = weight[s][o] * (get_value(s, o) == v)`. -/
def compute_honest (st : EMState) (s_id : ℕ) : ℚ :=
  (((List.range st.no).map (fun o =>
      ((List.range (domainSize st.claims o)).map (fun v =>
        (st.posterior.getD o []).getD v 0 *
          ((if weight st.claims s_id o then (1 : ℚ) else 0) *
            (if get_value st.claims s_id o = some v then (1 : ℚ) else 0)))).sum)).sum)
  / ((List.range st.no).map
      (fun o => if weight st.claims s_id o then (1 : ℚ) else 0)).sum

/-- `simpleLCA_EM.m_step`: writes `theta_new[s] = compute_honest(s)` for every
source, in place, into the `thetaB` array (`compute_honest` reads neither
`theta_new` nor `theta_old`, so the sequential writes equal a batch write). -/
def m_step (st : EMState) : EMState :=
  { st with thetaB := (List.range st.ns).map (fun s => compute_honest st s) }

/-- The sum of squared componentwise differences of two equally long vectors
(`np.linalg.norm(x - y, ord=2) ** 2`).  The loop guard `norm < alpha` is
embedded as `sqDiffSum < alpha ^ 2`, which is equivalent for `0 < alpha`
since both the norm and `alpha` are then nonnegative (see
`sqrt_guard_equiv` below). -/
def sqDiffSum (xs ys : List ℚ) : ℚ :=
  ((xs.zip ys).map (fun p => (p.1 - p.2) ^ 2)).sum

/-- The `while True` loop of `simpleLCA_EM.discover`, made total with a fuel
parameter: each pass runs `e_step` then `m_step`, checks the guard, and on
failure executes `self.theta_old = self.theta_new` — the reference
assignment `oldIsB := true`. -/
def emLoop (alpha : ℚ) : EMState → ℕ → Option EMState
  | _, 0 => none
  | st, fuel + 1 =>
    if sqDiffSum (thetaOld (m_step (e_step st))) (m_step (e_step st)).thetaB
        < alpha ^ 2 then
      some (m_step (e_step st))
    else
      emLoop alpha { m_step (e_step st) with oldIsB := true } fuel

/-- `simpleLCA_EM._compute_trust`: `trust[s] = Bernoulli(theta_old[s])`,
modelled by its success probability. -/
def _compute_trust (st : EMState) : List (ℕ × ℚ) :=
  (List.range st.ns).map (fun s => (s, (thetaOld st).getD s 0))

/-- `simpleLCA_EM._compute_truth`: `truth[o] = Categorical(posterior[o])`,
modelled by its probability vector. -/
def _compute_truth (st : EMState) : List (ℕ × List ℚ) :=
  (List.range st.no).map (fun o => (o, st.posterior.getD o []))

/-- `simpleLCA_EM.discover(alpha)`: run the EM loop, then
`return self._compute_trust(), self._compute_truth()` — trust first. -/
def discover (c : Claims) (alpha : ℚ) (fuel : ℕ) :
    Option ((List (ℕ × ℚ)) × (List (ℕ × List ℚ))) :=
  (emLoop alpha (initState c) fuel).map
    (fun st => (_compute_trust st, _compute_truth st))

/-- Test fixture A of `test_lca_em.py` (`claims`). -/
def fixtureA : Claims :=
  [⟨0, 0, 0⟩, ⟨0, 1, 1⟩, ⟨1, 1, 3⟩, ⟨1, 0, 1⟩, ⟨2, 2, 1⟩]

/-- Test fixture B of `test_lca_em.py` (`claims2`). -/
def fixtureB : Claims :=
  [⟨0, 0, 0⟩, ⟨0, 1, 1⟩, ⟨1, 1, 0⟩, ⟨1, 0, 1⟩, ⟨2, 2, 1⟩]

/-- The number of claims in `xs` asserting value `v`
(one bar of `x.value.value_counts()` in `majority.elect`). -/
def voteCount (xs : List ℕ) (v : ℕ) : ℕ :=
  (xs.filter (fun x => x == v)).length

/-- `majority.elect`: `x.value.value_counts().idxmax()` — a value of maximal
vote count.  `value_counts` tabulates the distinct values; `idxmax` returns
the first value attaining the maximal count, so ties go to the value whose
first occurrence is earliest (the source leaves the tie order unspecified;
any mode satisfies the specified contract). -/
def electFold (xs : List ℕ) (b : ℕ) (l : List ℕ) : ℕ :=
  l.foldl (fun best v => if voteCount xs best < voteCount xs v then v else best) b

def elect (xs : List ℕ) : ℕ :=
  match xs.dedup with
  | [] => 0
  | b :: rest => electFold xs b rest

/-- Insert into an ascending list (helper for the sorted group keys that
`claims.groupby('object_id')` produces). -/
def insertAsc (x : ℕ) : List ℕ → List ℕ
  | [] => [x]
  | y :: ys => if x ≤ y then x :: y :: ys else y :: insertAsc x ys

/-- Ascending insertion sort. -/
def sortAsc (l : List ℕ) : List ℕ := l.foldr insertAsc []

/-- `majority.majority_vote`: group the claims by `object_id` (pandas sorts
the group keys ascending), elect a value per group, and return the
`(object_id, value)` table. -/
def majority_vote (c : Claims) : List (ℕ × ℕ) :=
  (sortAsc (c.map (fun cl => cl.object_id)).dedup).map
    (fun o => (o, elect (objectValues c o)))

/-- `LCA._make_observation` of `lca_tf.py`: `observation[x_claim_c] = value`
of row `c`, for every row index of the claims table. -/
def _make_observation (c : Claims) : List (ℕ × ℕ) :=
  (List.range c.length).map (fun i => (i, (c.getD i ⟨0, 0, 0⟩).value))

/-- `LCA.discover` of `lca_tf.py`: stores the claims, initializes the
trainable variables, builds the per-claim observation mapping, conditions
the generative model on it (`observe(self.model, self.observation)`), and —
without ever constructing or training a BBVI engine — returns the freshly
created empty dicts `truth, trust` (in that order).  The conditioned
edward2/tensorflow model object is built but unused; the embedding exposes
the observation mapping together with the returned pair. -/
def LCA_discover (c : Claims) :
    (List (ℕ × ℕ)) × ((List (ℕ × List ℚ)) × (List (ℕ × ℚ))) :=
  (_make_observation c, ([], []))

/-- `_build_claim_probs(honest_prob, domain_size, truth)` — textually
identical in `simpleLCA_VI` (lca.py) and `LCA` (lca_tf.py):
`mask = one_hot(truth, d)`, `other = ones - mask`,
`probs = mask * p * ones + other * ((1 - p) / (d - 1)) * ones`. -/
def _build_claim_probs (honest_prob : ℚ) (domain_size : ℕ) (truth : ℕ) :
    List ℚ :=
  (List.range domain_size).map (fun i =>
    (if i = truth then (1 : ℚ) else 0) * honest_prob * 1 +
      (1 - if i = truth then (1 : ℚ) else 0) *
        ((1 - honest_prob) / ((domain_size : ℚ) - 1)) * 1)

/-- The claims table of testable property 8 of the spec: object 5 receives
values `[1, 1, 2]` from three distinct sources. -/
def fixtureMaj : Claims := [⟨0, 5, 1⟩, ⟨1, 5, 1⟩, ⟨2, 5, 2⟩]

/-- A table on which `discover` converges at the first check, with 1 source
and 3 objects, separating the key sets of the two returned components. -/
def fixtureC2 : Claims := [⟨0, 0, 0⟩, ⟨0, 1, 0⟩, ⟨0, 2, 0⟩]


/-! ### Helper lemmas -/

/-- Justification for embedding the loop guard
`np.linalg.norm(theta_old - theta_new) < alpha` as
`sqDiffSum theta_old theta_new < alpha ^ 2`: for a positive threshold the
two comparisons agree. -/
theorem sqrt_guard_equiv (xs ys : List ℚ) (a : ℚ) (ha : 0 < a) :
    Real.sqrt ((sqDiffSum xs ys : ℚ) : ℝ) < (a : ℝ) ↔
      sqDiffSum xs ys < a ^ 2 := by
  rw [Real.sqrt_lt' (by exact_mod_cast ha)]
  constructor
  · intro h; exact_mod_cast h
  · intro h; exact_mod_cast h

theorem sqDiffSum_self (l : List ℚ) : sqDiffSum l l = 0 := by
  induction l with
  | nil => rfl
  | cons a t ih =>
    simp only [sqDiffSum, List.zip_cons_cons, List.map_cons, List.sum_cons]
    simp only [sqDiffSum] at ih
    rw [ih]
    ring

theorem emLoop_succ (alpha : ℚ) (st : EMState) (fuel : ℕ) :
    emLoop alpha st (fuel + 1) =
      if sqDiffSum (thetaOld (m_step (e_step st))) (m_step (e_step st)).thetaB
          < alpha ^ 2 then
        some (m_step (e_step st))
      else
        emLoop alpha { m_step (e_step st) with oldIsB := true } fuel := rfl

/-- Once `theta_old` has been rebound to the `theta_new` array, the computed
difference vector is the array minus itself: its squared norm is zero. -/
theorem aliased_diff_zero (st : EMState) (h : st.oldIsB = true) :
    sqDiffSum (thetaOld st) st.thetaB = 0 := by
  rw [thetaOld, h, if_pos rfl]
  exact sqDiffSum_self _

/-- From an aliased state, one more pass always converges. -/
theorem emLoop_aliased (alpha : ℚ) (st : EMState) (h : st.oldIsB = true)
    (ha : 0 < alpha) (fuel : ℕ) :
    emLoop alpha st (fuel + 1) = some (m_step (e_step st)) := by
  rw [emLoop_succ, if_pos]
  rw [aliased_diff_zero (m_step (e_step st)) h]
  positivity

/-- The EM loop always succeeds with fuel two, and more fuel changes
nothing: either the first guard fires, or the aliasing assignment makes the
second guard compare the `thetaB` array with itself. -/
theorem emLoop_term (alpha : ℚ) (c : Claims) (ha : 0 < alpha) :
    ∃ st, ∀ f, emLoop alpha (initState c) (f + 2) = some st := by
  by_cases h : sqDiffSum (thetaOld (m_step (e_step (initState c))))
      (m_step (e_step (initState c))).thetaB < alpha ^ 2
  · refine ⟨m_step (e_step (initState c)), fun f => ?_⟩
    rw [show f + 2 = (f + 1) + 1 from rfl, emLoop_succ, if_pos h]
  · refine ⟨m_step (e_step
      { m_step (e_step (initState c)) with oldIsB := true }), fun f => ?_⟩
    rw [show f + 2 = (f + 1) + 1 from rfl, emLoop_succ, if_neg h]
    exact emLoop_aliased alpha _ rfl ha f

/-- Any state the loop returns is of the form `m_step (e_step st0)` for a
state sharing the immutable fields of the start state. -/
theorem emLoop_some_shape (alpha : ℚ) (fuel : ℕ) :
    ∀ st st' : EMState, emLoop alpha st fuel = some st' →
      ∃ st0, st' = m_step (e_step st0) ∧ st0.claims = st.claims ∧
        st0.ns = st.ns ∧ st0.no = st.no ∧ st0.prior = st.prior := by
  induction fuel with
  | zero => intro st st' h; simp [emLoop] at h
  | succ n ih =>
    intro st st' h
    rw [emLoop_succ] at h
    by_cases hc : sqDiffSum (thetaOld (m_step (e_step st)))
        (m_step (e_step st)).thetaB < alpha ^ 2
    · rw [if_pos hc] at h
      exact ⟨st, (Option.some_inj.mp h).symm, rfl, rfl, rfl, rfl⟩
    · rw [if_neg hc] at h
      obtain ⟨st0, h1, h2, h3, h4, h5⟩ := ih _ _ h
      exact ⟨st0, h1, h2, h3, h4, h5⟩

theorem getD_map_range {α : Type} (n i : ℕ) (f : ℕ → α) (d : α) (h : i < n) :
    ((List.range n).map f).getD i d = f i := by
  rw [List.getD_eq_getElem?_getD, List.getElem?_map, List.getElem?_range h]
  rfl

/-- A product over all sources with neutral factor 1 on unclaiming sources
equals the product restricted to the claiming sources. -/
theorem prod_map_ite (l : List ℕ) (p : ℕ → Bool) (f : ℕ → ℚ) :
    (l.map (fun s => if p s then f s else 1)).prod =
      ((l.filter p).map f).prod := by
  induction l with
  | nil => rfl
  | cons a t ih => by_cases h : p a <;> simp [List.filter_cons, h, ih]

/-- A sum of 0/1 indicators equals the cardinality of the filtered list. -/
theorem sum_map_indicator (l : List ℕ) (p : ℕ → Bool) :
    (l.map (fun o => if p o then (1 : ℚ) else 0)).sum =
      ((l.filter p).length : ℚ) := by
  induction l with
  | nil => simp
  | cons a t ih =>
    by_cases h : p a
    · simp only [List.map_cons, List.sum_cons, List.filter_cons, h, if_true,
        List.length_cons, ih]
      push_cast
      ring
    · simp [List.filter_cons, h, ih]

theorem sum_map_congr_const (l : List ℕ) (f : ℕ → ℚ) (q : ℚ)
    (h : ∀ i ∈ l, f i = q) : (l.map f).sum = l.length * q := by
  induction l with
  | nil => simp
  | cons a t ih =>
    simp only [List.map_cons, List.sum_cons, List.length_cons]
    rw [h a (by simp), ih (fun i hi => h i (by simp [hi]))]
    push_cast
    ring

/-- Summing a vector that is `p` at one in-range index and `q` elsewhere. -/
theorem sum_map_range_ite (d v : ℕ) (p q : ℚ) (hv : v < d) :
    ((List.range d).map (fun i => if i = v then p else q)).sum
      = p + ((d : ℚ) - 1) * q := by
  induction d with
  | zero => omega
  | succ n ih =>
    rw [List.range_succ, List.map_append, List.sum_append]
    by_cases h : v = n
    · subst h
      rw [sum_map_congr_const _ _ q
        (fun i hi => if_neg (Nat.ne_of_lt (List.mem_range.mp hi)))]
      simp only [List.length_range, List.map_cons, List.map_nil,
        List.sum_cons, List.sum_nil, if_pos rfl]
      push_cast
      ring
    · have hv' : v < n := by omega
      rw [ih hv']
      simp only [List.map_cons, List.map_nil, List.sum_cons, List.sum_nil,
        if_neg (Ne.symm h)]
      push_cast
      ring

/-- The maximum computation behind `domainSize`: on a nonempty list,
`foldr max 0` is an element bounding every element. -/
theorem foldr_max_spec (l : List ℕ) (h : l ≠ []) :
    l.foldr max 0 ∈ l ∧ ∀ w ∈ l, w ≤ l.foldr max 0 := by
  induction l with
  | nil => exact absurd rfl h
  | cons a t ih =>
    cases t with
    | nil =>
      refine ⟨by simp, ?_⟩
      intro w hw
      rcases List.mem_cons.mp hw with rfl | hw
      · simp
      · simp at hw
    | cons b u =>
      obtain ⟨h1, h2⟩ := ih (by simp)
      have hfold : (a :: b :: u).foldr max 0 = max a ((b :: u).foldr max 0) :=
        rfl
      rcases Nat.le_total a ((b :: u).foldr max 0) with hle | hle
      · rw [hfold, Nat.max_eq_right hle]
        refine ⟨List.mem_cons_of_mem _ h1, ?_⟩
        intro w hw
        rcases List.mem_cons.mp hw with rfl | hw
        · exact hle
        · exact h2 w hw
      · rw [hfold, Nat.max_eq_left hle]
        refine ⟨List.mem_cons_self _ _, ?_⟩
        intro w hw
        rcases List.mem_cons.mp hw with rfl | hw
        · exact le_refl _
        · exact le_trans (h2 w hw) hle

/-- The dict-building fold of `get_value` returns its accumulator when no
row matches the key. -/
theorem get_value_fold_no_match (s o : ℕ) (l : Claims) (acc : Option ℕ)
    (h : ∀ cl ∈ l, ¬(cl.source_id = s ∧ cl.object_id = o)) :
    l.foldl (fun acc cl =>
        if cl.source_id = s ∧ cl.object_id = o then some cl.value else acc)
      acc = acc := by
  induction l generalizing acc with
  | nil => rfl
  | cons a t ih =>
    simp only [List.foldl_cons]
    rw [if_neg (h a (by simp))]
    exact ih acc (fun cl hcl => h cl (by simp [hcl]))

/-- On a table without duplicate `(source_id, object_id)` pairs, the value
index holds `v` at key `(s, o)` exactly when the table has that claim. -/
theorem get_value_eq_some_iff (c : Claims) (s o v : ℕ) (hnd : noDupPairs c) :
    get_value c s o = some v ↔ Claim.mk s o v ∈ c := by
  induction c with
  | nil => simp [get_value]
  | cons a t ih =>
    rw [noDupPairs, List.map_cons, List.nodup_cons] at hnd
    obtain ⟨as, ao, av⟩ := a
    by_cases h : as = s ∧ ao = o
    · have hnm : ∀ cl ∈ t, ¬(cl.source_id = s ∧ cl.object_id = o) := by
        intro cl hcl hmatch
        apply hnd.1
        have hpair : (cl.source_id, cl.object_id) = (as, ao) := by
          rw [hmatch.1, hmatch.2, h.1, h.2]
        rw [← hpair]
        exact List.mem_map_of_mem (fun x => (x.source_id, x.object_id)) hcl
      have hlhs : get_value (Claim.mk as ao av :: t) s o = some av := by
        simp only [get_value, List.foldl_cons, if_pos h]
        exact get_value_fold_no_match s o t (some av) hnm
      rw [hlhs]
      constructor
      · intro hv
        have heq : Claim.mk s o v = Claim.mk as ao av := by
          rw [← h.1, ← h.2, Option.some_inj.mp hv]
        rw [heq]
        exact List.mem_cons_self _ _
      · intro hv
        rcases List.mem_cons.mp hv with heq | hmem
        · exact congrArg some (congrArg Claim.value heq).symm
        · exact absurd ⟨rfl, rfl⟩ (hnm _ hmem)
    · have hlhs : get_value (Claim.mk as ao av :: t) s o = get_value t s o := by
        simp only [get_value, List.foldl_cons, if_neg h]
      rw [hlhs, ih hnd.2]
      constructor
      · exact fun hm => List.mem_cons_of_mem _ hm
      · intro hm
        rcases List.mem_cons.mp hm with heq | hmem
        · exact absurd ⟨congrArg Claim.source_id heq.symm,
            congrArg Claim.object_id heq.symm⟩ h
        · exact hmem

/-- When no claim by `s` about `o` exists at all, `get_value` is the absent
sentinel `none`. -/
theorem get_value_eq_none (c : Claims) (s o : ℕ)
    (h : ∀ cl ∈ c, ¬(cl.source_id = s ∧ cl.object_id = o)) :
    get_value c s o = none :=
  get_value_fold_no_match s o c none h

/-- The argmax fold behind `elect`: the result is the seed or a member of
the list, and its vote count dominates the seed's and every member's. -/
theorem electFold_spec (xs l : List ℕ) : ∀ b : ℕ,
    (electFold xs b l = b ∨ electFold xs b l ∈ l) ∧
    voteCount xs b ≤ voteCount xs (electFold xs b l) ∧
    ∀ v ∈ l, voteCount xs v ≤ voteCount xs (electFold xs b l) := by
  induction l with
  | nil => exact fun b => ⟨Or.inl rfl, le_refl _, by simp⟩
  | cons a t ih =>
    intro b
    by_cases h : voteCount xs b < voteCount xs a
    · have hstep : electFold xs b (a :: t) = electFold xs a t := by
        simp [electFold, h]
      obtain ⟨h1, h2, h3⟩ := ih a
      rw [hstep]
      refine ⟨?_, le_trans (le_of_lt h) h2, ?_⟩
      · rcases h1 with h1 | h1
        · exact Or.inr (by simp [h1])
        · exact Or.inr (List.mem_cons_of_mem _ h1)
      · intro v hv
        rcases List.mem_cons.mp hv with rfl | hv
        · exact h2
        · exact h3 v hv
    · have hstep : electFold xs b (a :: t) = electFold xs b t := by
        simp [electFold, h]
      obtain ⟨h1, h2, h3⟩ := ih b
      rw [hstep]
      refine ⟨?_, h2, ?_⟩
      · rcases h1 with h1 | h1
        · exact Or.inl h1
        · exact Or.inr (List.mem_cons_of_mem _ h1)
      · intro v hv
        rcases List.mem_cons.mp hv with rfl | hv
        · exact le_trans (Nat.le_of_not_lt h) h2
        · exact h3 v hv

/-- `elect` returns a mode: an asserted value whose count dominates the
count of every asserted value. -/
theorem elect_spec (xs : List ℕ) (hne : xs ≠ []) :
    elect xs ∈ xs ∧ ∀ v ∈ xs, voteCount xs v ≤ voteCount xs (elect xs) := by
  cases hdd : xs.dedup with
  | nil => exact absurd ((List.dedup_eq_nil xs).mp hdd) hne
  | cons b rest =>
    have helect : elect xs = electFold xs b rest := by
      rw [elect, hdd]
    obtain ⟨h1, h2, h3⟩ := electFold_spec xs rest b
    rw [helect]
    constructor
    · rcases h1 with h1 | h1
      · rw [h1]
        exact List.mem_dedup.mp (by rw [hdd]; exact List.mem_cons_self _ _)
      · exact List.mem_dedup.mp (by rw [hdd]; exact List.mem_cons_of_mem _ h1)
    · intro v hv
      have hvm : v ∈ xs.dedup := List.mem_dedup.mpr hv
      rw [hdd] at hvm
      rcases List.mem_cons.mp hvm with rfl | hvm
      · exact h2
      · exact h3 v hvm

theorem mem_insertAsc (x a : ℕ) (l : List ℕ) :
    a ∈ insertAsc x l ↔ a = x ∨ a ∈ l := by
  induction l with
  | nil => simp [insertAsc]
  | cons y ys ih =>
    by_cases h : x ≤ y
    · simp [insertAsc, h]
    · simp only [insertAsc, if_neg h, List.mem_cons, ih]
      tauto

theorem nodup_insertAsc (x : ℕ) (l : List ℕ) (hnd : l.Nodup) (hx : x ∉ l) :
    (insertAsc x l).Nodup := by
  induction l with
  | nil => simp [insertAsc]
  | cons y ys ih =>
    rw [List.nodup_cons] at hnd
    by_cases h : x ≤ y
    · rw [insertAsc, if_pos h, List.nodup_cons, List.nodup_cons]
      exact ⟨by simp at hx ⊢; tauto, hnd⟩
    · rw [insertAsc, if_neg h, List.nodup_cons]
      constructor
      · rw [mem_insertAsc]
        rintro (rfl | hmem)
        · exact hx (List.mem_cons_self _ _)
        · exact hnd.1 hmem
      · exact ih hnd.2 (fun hm => hx (List.mem_cons_of_mem _ hm))

theorem mem_sortAsc (l : List ℕ) (a : ℕ) : a ∈ sortAsc l ↔ a ∈ l := by
  induction l with
  | nil => simp [sortAsc]
  | cons y ys ih =>
    rw [sortAsc, List.foldr_cons]
    rw [show ys.foldr insertAsc [] = sortAsc ys from rfl]
    rw [mem_insertAsc, ih, List.mem_cons]

theorem nodup_sortAsc (l : List ℕ) (hnd : l.Nodup) : (sortAsc l).Nodup := by
  induction l with
  | nil => simp [sortAsc]
  | cons y ys ih =>
    rw [List.nodup_cons] at hnd
    rw [sortAsc, List.foldr_cons,
      show ys.foldr insertAsc [] = sortAsc ys from rfl]
    exact nodup_insertAsc y (sortAsc ys) (ih hnd.2)
      (fun hm => hnd.1 ((mem_sortAsc ys y).mp hm))

/-- Filtering a keyed map built over a duplicate-free key list for one key. -/
theorem filter_map_keys {β : Type} (l : List ℕ) (g : ℕ → β) (o : ℕ)
    (hnd : l.Nodup) :
    (l.map (fun k => (k, g k))).filter (fun r => r.1 == o) =
      if o ∈ l then [(o, g o)] else [] := by
  induction l with
  | nil => simp
  | cons a t ih =>
    rw [List.nodup_cons] at hnd
    rw [List.map_cons, List.filter_cons, ih hnd.2]
    by_cases h : a = o
    · subst h
      simp only [beq_self_eq_true, if_true, if_neg hnd.1,
        if_pos (List.mem_cons_self a t)]
    · have hb : ((a, g a).1 == o) = false := by
        simp [h]
      rw [hb]
      simp only [Bool.false_eq_true, if_false]
      by_cases hmem : o ∈ t
      · rw [if_pos hmem, if_pos (List.mem_cons_of_mem _ hmem)]
      · rw [if_neg hmem, if_neg (by
          rw [List.mem_cons]
          rintro (rfl | hc)
          · exact h rfl
          · exact hmem hc)]

/-- `lookup` on the association list `[(0, g 0), ..., (n-1, g (n-1))]`. -/
theorem lookup_map_range' {β : Type} (g : ℕ → β) :
    ∀ (n a i : ℕ), a ≤ i → i < a + n →
      ((List.range' a n).map (fun j => (j, g j))).lookup i = some (g i) := by
  intro n
  induction n with
  | zero => omega
  | succ m ih =>
    intro a i h1 h2
    rw [List.range'_succ, List.map_cons, List.lookup_cons]
    by_cases h : i = a
    · subst h
      simp
    · have hbeq : (i == a) = false := by simpa using h
      rw [hbeq]
      exact ih (a + 1) i (by omega) (by omega)

theorem lookup_map_range {β : Type} (g : ℕ → β) (n i : ℕ) (h : i < n) :
    ((List.range n).map (fun j => (j, g j))).lookup i = some (g i) := by
  rw [List.range_eq_range']
  exact lookup_map_range' g n 0 i (Nat.zero_le i) (by omega)

/-- After an `e_step`, every posterior vector has the object's domain size
as its length. -/
theorem e_step_posterior_length (st : EMState) (o : ℕ) (ho : o < st.no) :
    ((e_step st).posterior.getD o []).length = domainSize st.claims o := by
  show (((List.range st.no).map _).getD o []).length = _
  rw [getD_map_range st.no o _ [] ho]
  simp [compute_joint]

/-- A claim about `o` contributes its value to `objectValues c o`. -/
theorem value_mem_objectValues (c : Claims) (cl : Claim) (hm : cl ∈ c) :
    cl.value ∈ objectValues c cl.object_id := by
  rw [objectValues]
  exact List.mem_map_of_mem _ (List.mem_filter.mpr ⟨hm, by simp⟩)

/-- Every asserted value is strictly below the object's domain size. -/
theorem value_lt_domainSize (c : Claims) (cl : Claim) (hm : cl ∈ c) :
    cl.value < domainSize c cl.object_id := by
  rw [domainSize]
  have hne : objectValues c cl.object_id ≠ [] :=
    List.ne_nil_of_mem (value_mem_objectValues c cl hm)
  have := (foldr_max_spec _ hne).2 cl.value (value_mem_objectValues c cl hm)
  omega

/-- Structure eta for claims whose key fields are known. -/
theorem claim_eta (cl : Claim) (s o : ℕ) (h1 : cl.source_id = s)
    (h2 : cl.object_id = o) : Claim.mk s o cl.value = cl := by
  obtain ⟨as, ao, av⟩ := cl
  rw [← h1, ← h2]

/-! ### Claim theorems -/

/-- C3: for every object `o`, value `v` and current honesty vector
`theta_old`, `compute_responsibility(o, v)` is the product over the sources
`s` with `W[s,o] = 1` of `theta_old[s]` when the value asserted by `s`
about `o` equals `v`, and `(1 - theta_old[s]) / domain_size[o]` otherwise;
on fixture B with all honesty parameters at the initial 0.5,
`compute_responsibility(1, 1) = 0.125` exactly. -/
theorem compute_responsibility_spec :
    (∀ (st : EMState) (o v : ℕ),
      compute_responsibility st o v =
        (((List.range st.ns).filter (fun s => weight st.claims s o)).map
          (fun s =>
            if get_value st.claims s o = some v then (thetaOld st).getD s 0
            else (1 - (thetaOld st).getD s 0) /
              (domainSize st.claims o : ℚ))).prod) ∧
    compute_responsibility (initState fixtureB) 1 1 = 1/8 := by
  constructor
  · intro st o v
    simp only [compute_responsibility]
    exact prod_map_ite (List.range st.ns) _ _
  · norm_num [compute_responsibility, initState, thetaOld, weight, get_value,
      domainSize, objectValues, fixtureB, nSources, nObjects, List.range_succ]

/-- C9: `_build_claim_probs(p, d, v)` — identical in both variational
variants — assigns probability `p` to index `v` and `(1-p)/(d-1)` to every
other index of the length-`d` vector, and the entries sum to exactly 1,
for every honesty probability `p` in `[0,1]`, domain size `d > 1` and
truth value `v < d`. -/
theorem build_claim_probs_spec (p : ℚ) (d t : ℕ)
    (_hp0 : 0 ≤ p) (_hp1 : p ≤ 1) (hd : 1 < d) (ht : t < d) :
    (_build_claim_probs p d t).length = d ∧
    (_build_claim_probs p d t).getD t 0 = p ∧
    (∀ i, i < d → i ≠ t →
      (_build_claim_probs p d t).getD i 0 = (1 - p) / ((d : ℚ) - 1)) ∧
    (_build_claim_probs p d t).sum = 1 := by
  have hform : _build_claim_probs p d t =
      (List.range d).map
        (fun i => if i = t then p else (1 - p) / ((d : ℚ) - 1)) := by
    apply List.map_congr_left
    intro i _
    by_cases h : i = t
    · rw [if_pos h, if_pos h]
      ring
    · rw [if_neg h, if_neg h]
      ring
  have hdQ : ((d : ℚ) - 1) ≠ 0 := by
    have : (1 : ℚ) < (d : ℚ) := by exact_mod_cast hd
    linarith
  refine ⟨?_, ?_, ?_, ?_⟩
  · rw [hform]
    simp
  · rw [hform, getD_map_range d t _ 0 ht, if_pos rfl]
  · intro i hi hne
    rw [hform, getD_map_range d i _ 0 hi, if_neg hne]
  · rw [hform, sum_map_range_ite d t p _ ht, mul_div_cancel₀ _ hdQ]
    ring

/-- C9 witness: instance at `p = 1/2`, `d = 2`, `v = 1`. -/
theorem build_claim_probs_spec_witness :
    (0 : ℚ) ≤ 1/2 ∧ (1 : ℚ)/2 ≤ 1 ∧ 1 < 2 ∧ 1 < 2 ∧
    (_build_claim_probs (1/2) 2 1).sum = 1 :=
  ⟨by norm_num, by norm_num, by norm_num, by norm_num,
    (build_claim_probs_spec (1/2) 2 1 (by norm_num) (by norm_num)
      (by norm_num) (by norm_num)).2.2.2⟩

/-- C8: on a table without duplicate `(source_id, object_id)` pairs,
`get_value(s, o)` returns the value asserted by `s` about `o` when such a
claim exists, and the absent sentinel `none` (distinct from every value
code) when it does not; on fixture A, `get_value(1, 0) = 1` and
`get_value(1, 1) = 3`, and the unobserved pair `(2, 0)` yields `none`. -/
theorem get_value_spec :
    (∀ (c : Claims) (s o v : ℕ), noDupPairs c →
      (get_value c s o = some v ↔ Claim.mk s o v ∈ c)) ∧
    (∀ (c : Claims) (s o : ℕ), (∀ v, Claim.mk s o v ∉ c) →
      get_value c s o = none) ∧
    get_value fixtureA 1 0 = some 1 ∧
    get_value fixtureA 1 1 = some 3 ∧
    get_value fixtureA 2 0 = none := by
  refine ⟨fun c s o v hnd => get_value_eq_some_iff c s o v hnd, ?_,
    by decide, by decide, by decide⟩
  intro c s o h
  apply get_value_eq_none
  intro cl hcl hmatch
  apply h cl.value
  rw [claim_eta cl s o hmatch.1 hmatch.2]
  exact hcl

/-- C8 witness: instance at fixture A, key `(1, 0)`, value 1. -/
theorem get_value_spec_witness :
    noDupPairs fixtureA ∧ get_value fixtureA 1 0 = some 1 :=
  ⟨by decide,
    (get_value_spec.1 fixtureA 1 0 1 (by decide)).mpr (by decide)⟩

/-- C7: the per-claim variational variant `LCA.discover` builds the
per-claim observation mapping `x_claim_c -> asserted value of row c` (and
conditions the generative model on it), runs no BBVI training, and returns
a pair of two empty mappings for every input. -/
theorem lca_discover_empty_spec :
    (∀ c : Claims, (LCA_discover c).2 = ([], [])) ∧
    (∀ (c : Claims) (i : ℕ), i < c.length →
      (LCA_discover c).1.lookup i = some ((c.getD i ⟨0, 0, 0⟩).value)) := by
  refine ⟨fun c => rfl, ?_⟩
  intro c i hi
  exact lookup_map_range _ c.length i hi

/-- C7 witness: instance at fixture A, claim row 2 (value 3). -/
theorem lca_discover_empty_spec_witness :
    2 < fixtureA.length ∧
    (LCA_discover fixtureA).1.lookup 2 = some ((fixtureA.getD 2 ⟨0, 0, 0⟩).value) :=
  ⟨by decide, lca_discover_empty_spec.2 fixtureA 2 (by decide)⟩

/-- C5: for every claims table and object appearing in it, `majority_vote`
returns exactly one row for that object, whose value is an asserted value
with maximal assertion count (a mode of the object's value distribution);
when object 5 receives values `[1, 1, 2]` from three distinct sources, the
returned value for object 5 is 1. -/
theorem majority_vote_spec :
    (∀ (c : Claims) (o : ℕ), o ∈ c.map (fun cl => cl.object_id) →
      ∃ v, (majority_vote c).filter (fun r => r.1 == o) = [(o, v)] ∧
        v ∈ objectValues c o ∧
        ∀ w ∈ objectValues c o,
          voteCount (objectValues c o) w ≤ voteCount (objectValues c o) v) ∧
    majority_vote fixtureMaj = [(5, 1)] := by
  constructor
  · intro c o ho
    have hne : objectValues c o ≠ [] := by
      obtain ⟨cl, hcl, hclo⟩ := List.mem_map.mp ho
      have := value_mem_objectValues c cl hcl
      rw [hclo] at this
      exact List.ne_nil_of_mem this
    refine ⟨elect (objectValues c o), ?_, (elect_spec _ hne).1,
      (elect_spec _ hne).2⟩
    rw [majority_vote,
      filter_map_keys _ _ o (nodup_sortAsc _ (List.nodup_dedup _))]
    rw [if_pos ((mem_sortAsc _ o).mpr (List.mem_dedup.mpr ho))]
  · decide

/-- C5 witness: instance at the three-source table for object 5. -/
theorem majority_vote_spec_witness :
    (5 : ℕ) ∈ fixtureMaj.map (fun cl => cl.object_id) ∧
    ∃ v, (majority_vote fixtureMaj).filter (fun r => r.1 == 5) = [(5, v)] ∧
      v ∈ objectValues fixtureMaj 5 ∧
      ∀ w ∈ objectValues fixtureMaj 5,
        voteCount (objectValues fixtureMaj 5) w ≤
          voteCount (objectValues fixtureMaj 5) v :=
  ⟨by decide, majority_vote_spec.1 fixtureMaj 5 (by decide)⟩

/-- C4: for every source `s` whose weight-matrix row is nonzero, the M-step
sets `theta_new[s]` to the sum over objects `o` and domain values `v` of
`posterior[o][v] * W[s,o] * 1{observed_value(s,o) = v}`, divided by the
number of objects `s` made claims about; on fixture B, after one E-step
then one M-step, `theta_new[1] = 0.5` exactly. -/
theorem m_step_update_spec :
    (∀ (st : EMState) (s : ℕ), s < st.ns →
      0 < ((List.range st.no).filter (fun o => weight st.claims s o)).length →
      (m_step st).thetaB.getD s 0 =
        (((List.range st.no).map (fun o =>
          ((List.range (domainSize st.claims o)).map (fun v =>
            (st.posterior.getD o []).getD v 0 *
              (if weight st.claims s o then (1 : ℚ) else 0) *
              (if get_value st.claims s o = some v then (1 : ℚ) else 0))).sum)).sum)
        / (((List.range st.no).filter
            (fun o => weight st.claims s o)).length : ℚ)) ∧
    (m_step (e_step (initState fixtureB))).thetaB.getD 1 0 = 1/2 := by
  constructor
  · intro st s hs _hpos
    rw [show (m_step st).thetaB =
      (List.range st.ns).map (fun s => compute_honest st s) from rfl]
    rw [getD_map_range st.ns s _ 0 hs, compute_honest, sum_map_indicator]
    congr 1
    apply congrArg List.sum
    apply List.map_congr_left
    intro o _
    apply congrArg List.sum
    apply List.map_congr_left
    intro v _
    ring
  · norm_num [m_step, e_step, compute_honest, compute_joint,
      compute_responsibility, initState, thetaOld, weight, get_value,
      domainSize, objectValues, fixtureB, nSources, nObjects, List.range_succ]

/-- C4 witness: instance at the state after one E-step on fixture B, source 1. -/
theorem m_step_update_spec_witness :
    1 < (e_step (initState fixtureB)).ns ∧
    0 < ((List.range (e_step (initState fixtureB)).no).filter
      (fun o => weight (e_step (initState fixtureB)).claims 1 o)).length ∧
    (m_step (e_step (initState fixtureB))).thetaB.getD 1 0 =
      (((List.range (e_step (initState fixtureB)).no).map (fun o =>
        ((List.range (domainSize (e_step (initState fixtureB)).claims o)).map
          (fun v =>
          ((e_step (initState fixtureB)).posterior.getD o []).getD v 0 *
            (if weight (e_step (initState fixtureB)).claims 1 o then (1 : ℚ)
              else 0) *
            (if get_value (e_step (initState fixtureB)).claims 1 o = some v
              then (1 : ℚ) else 0))).sum)).sum)
      / (((List.range (e_step (initState fixtureB)).no).filter
          (fun o => weight (e_step (initState fixtureB)).claims 1 o)).length
            : ℚ) :=
  ⟨by decide, by decide,
    m_step_update_spec.1 (e_step (initState fixtureB)) 1 (by decide)
      (by decide)⟩

/-- C6: for every object appearing in the table, `domain_size[o]` is the
maximum value asserted for `o` plus one, `prior[o]` is the uniform vector
of that length, and in every state the EM loop returns both the prior and
the posterior vector of every object have length exactly `domain_size[o]`. -/
theorem domain_size_invariant :
    (∀ (c : Claims) (o : ℕ), (∃ cl ∈ c, cl.object_id = o) →
      ∃ v ∈ objectValues c o, domainSize c o = v + 1 ∧
        ∀ w ∈ objectValues c o, w ≤ v) ∧
    (∀ (c : Claims) (o : ℕ), o < nObjects c →
      (initState c).prior.getD o [] =
        List.replicate (domainSize c o) (1 / (domainSize c o : ℚ))) ∧
    (∀ (c : Claims) (alpha : ℚ) (fuel : ℕ) (st : EMState),
      emLoop alpha (initState c) fuel = some st →
      ∀ o, o < nObjects c →
        (st.prior.getD o []).length = domainSize c o ∧
        (st.posterior.getD o []).length = domainSize c o) := by
  have hprior : ∀ (c : Claims) (o : ℕ), o < nObjects c →
      (initState c).prior.getD o [] =
        List.replicate (domainSize c o) (1 / (domainSize c o : ℚ)) := by
    intro c o ho
    show ((List.range (nObjects c)).map _).getD o [] = _
    rw [getD_map_range (nObjects c) o _ [] ho]
  refine ⟨?_, hprior, ?_⟩
  · rintro c o ⟨cl, hcl, hclo⟩
    have hmem := value_mem_objectValues c cl hcl
    rw [hclo] at hmem
    obtain ⟨h1, h2⟩ := foldr_max_spec _ (List.ne_nil_of_mem hmem)
    exact ⟨(objectValues c o).foldr max 0, h1, rfl, h2⟩
  · intro c alpha fuel st hloop o ho
    obtain ⟨st0, hshape, hclaims, hns, hno, hpr⟩ :=
      emLoop_some_shape alpha fuel _ _ hloop
    subst hshape
    have hno' : o < st0.no := by rw [hno]; exact ho
    constructor
    · show (st0.prior.getD o []).length = _
      rw [hpr, hprior c o ho, List.length_replicate]
    · show ((e_step st0).posterior.getD o []).length = _
      rw [e_step_posterior_length st0 o hno', hclaims]
      rfl

/-- Keys of an association list built over `range n`. -/
theorem map_fst_keys {β : Type} (n : ℕ) (g : ℕ → β) :
    ((List.range n).map (fun k => (k, g k))).map Prod.fst = List.range n := by
  rw [List.map_map]
  exact List.map_id _

/-- C6 witness: instance at fixture B (object 0, one loop pass). -/
theorem domain_size_invariant_witness :
    0 < nObjects fixtureB ∧
    ∃ st, emLoop 1 (initState fixtureB) 1 = some st ∧
      (st.prior.getD 0 []).length = domainSize fixtureB 0 ∧
      (st.posterior.getD 0 []).length = domainSize fixtureB 0 := by
  have hrep : List.replicate 3 ((1 : ℚ)/2) = [1/2, 1/2, 1/2] := rfl
  have h : emLoop 1 (initState fixtureB) 1 =
      some (m_step (e_step (initState fixtureB))) := by
    rw [emLoop_succ, if_pos]
    norm_num [m_step, e_step, compute_honest, compute_joint,
      compute_responsibility, initState, thetaOld, weight, get_value,
      domainSize, objectValues, fixtureB, nSources, nObjects, sqDiffSum,
      hrep, List.range_succ]
  exact ⟨by decide, m_step (e_step (initState fixtureB)), h,
    domain_size_invariant.2.2 fixtureB 1 1 _ h 0 (by decide)⟩

/-- Concrete run of `discover` on a 1-source/3-object table: the loop
converges at the first check, and the returned pair is
`(trust, truth) = ({0: 1/2}, {0: [1], 1: [1], 2: [1]})`. -/
theorem discover_fixtureC2_eval :
    discover fixtureC2 1 2 =
      some ([(0, 1/2)], [(0, [1]), (1, [1]), (2, [1])]) := by
  norm_num [discover, emLoop, m_step, e_step, compute_honest, compute_joint,
    compute_responsibility, initState, thetaOld, weight, get_value,
    domainSize, objectValues, fixtureC2, nSources, nObjects,
    _compute_trust, _compute_truth, sqDiffSum, List.range_succ]

/-- C2 counterexample: on the table `fixtureC2` (1 source, 3 objects),
`simpleLCA_EM.discover` converges, but the FIRST component of the returned
pair is keyed by the source ids, not by the object ids — it is the trust
mapping, not the truth mapping claimed to come first; the truth mapping is
the second component. -/
theorem discover_trust_first_counterexample :
    ∃ out, discover fixtureC2 1 2 = some out ∧
      out.1.map Prod.fst ≠ (fixtureC2.map (fun cl => cl.object_id)).dedup ∧
      out.1.map Prod.fst = (fixtureC2.map (fun cl => cl.source_id)).dedup ∧
      out.2.map Prod.fst = (fixtureC2.map (fun cl => cl.object_id)).dedup :=
  ⟨([(0, 1/2)], [(0, [1]), (1, [1]), (2, [1])]), discover_fixtureC2_eval,
    by decide, by decide, by decide⟩

/-- C2 (amended): whenever `simpleLCA_EM.discover` converges it returns the
pair `(trust, truth)` in that order — the first component is keyed by the
source ids `0..n_sources-1` (trust), the second by the object ids
`0..n_objects-1` (truth).  (The per-claim variational `LCA.discover`
returns `(truth, trust)`, both empty; see the C7 theorem.) -/
theorem discover_returns_trust_then_truth :
    ∀ (c : Claims) (alpha : ℚ) (fuel : ℕ)
      (out : (List (ℕ × ℚ)) × (List (ℕ × List ℚ))),
      discover c alpha fuel = some out →
      out.1.map Prod.fst = List.range (nSources c) ∧
      out.2.map Prod.fst = List.range (nObjects c) := by
  intro c alpha fuel out h
  rw [discover] at h
  cases hm : emLoop alpha (initState c) fuel with
  | none => rw [hm] at h; simp at h
  | some st =>
    rw [hm] at h
    simp only [Option.map_some'] at h
    obtain ⟨st0, hshape, hclaims, hns, hno, hpr⟩ :=
      emLoop_some_shape alpha fuel _ _ hm
    rw [← Option.some_inj.mp h]
    subst hshape
    constructor
    · show (_compute_trust (m_step (e_step st0))).map Prod.fst = _
      rw [show (_compute_trust (m_step (e_step st0))).map Prod.fst =
        List.range (m_step (e_step st0)).ns from map_fst_keys _ _]
      exact congrArg List.range hns
    · show (_compute_truth (m_step (e_step st0))).map Prod.fst = _
      rw [show (_compute_truth (m_step (e_step st0))).map Prod.fst =
        List.range (m_step (e_step st0)).no from map_fst_keys _ _]
      exact congrArg List.range hno

/-- C2 witness: instance at the concrete converging table `fixtureC2`. -/
theorem discover_returns_trust_then_truth_witness :
    ∃ out, discover fixtureC2 1 2 = some out ∧
      out.1.map Prod.fst = List.range (nSources fixtureC2) ∧
      out.2.map Prod.fst = List.range (nObjects fixtureC2) :=
  ⟨([(0, 1/2)], [(0, [1]), (1, [1]), (2, [1])]), discover_fixtureC2_eval,
    discover_returns_trust_then_truth fixtureC2 1 2 _ discover_fixtureC2_eval⟩

/-- C10: for every claims table with dense zero-based ids (and pivotable,
i.e. duplicate-free, source/object pairs) and every threshold `alpha > 0`,
the EM loop of `discover` terminates after at most two E-step/M-step
passes — fuel 2 already yields a result, which more fuel never changes —
because whenever the first convergence check fails, the assignment
`theta_old = theta_new` makes both names refer to the same array, the
in-place M-step mutates both, and the next computed difference is exactly
zero. -/
theorem em_two_pass_termination :
    ∀ (c : Claims) (alpha : ℚ), denseIds c → noDupPairs c → 0 < alpha →
      (∃ st, ∀ f, emLoop alpha (initState c) (f + 2) = some st) ∧
      (∀ st : EMState, st.oldIsB = true →
        sqDiffSum (thetaOld st) st.thetaB = 0) := by
  intro c alpha _ _ ha
  exact ⟨emLoop_term alpha c ha, fun st hst => aliased_diff_zero st hst⟩

/-- C10 witness: instance at fixture B with threshold 1. -/
theorem em_two_pass_termination_witness :
    denseIds fixtureB ∧ noDupPairs fixtureB ∧ (0 : ℚ) < 1 ∧
    (∃ st, ∀ f, emLoop 1 (initState fixtureB) (f + 2) = some st) :=
  ⟨by decide, by decide, by norm_num,
    (em_two_pass_termination fixtureB 1 (by decide) (by decide)
      (by norm_num)).1⟩

/-- C1 counterexample: non-termination of `simpleLCA_EM.discover` is NOT
reachable — there is no claims table (dense ids, pivotable) and threshold
`alpha > 0` on which the EM loop runs forever, because the reference
assignment `theta_old = theta_new` forces the second convergence check to
compare the `thetaB` array with itself. -/
theorem em_nontermination_unreachable :
    ¬ ∃ (c : Claims) (alpha : ℚ), 0 < alpha ∧ denseIds c ∧ noDupPairs c ∧
      ∀ fuel, emLoop alpha (initState c) fuel = none := by
  rintro ⟨c, alpha, ha, -, -, hloop⟩
  obtain ⟨st, hst⟩ := emLoop_term alpha c ha
  have h0 := hst 0
  rw [hloop (0 + 2)] at h0
  exact Option.noConfusion h0

/-- C1 (amended): the EM main loop of `discover(alpha)` indeed has no
explicit maximum-iteration bound, but for every dense, pivotable claims
table and every threshold `alpha > 0` it nevertheless always terminates,
within two E-step/M-step passes: `theta_old = theta_new` aliases the two
arrays, so the loop can never run forever. -/
theorem em_discover_always_halts :
    ∀ (c : Claims) (alpha : ℚ), denseIds c → noDupPairs c → 0 < alpha →
      (discover c alpha 2).isSome := by
  intro c alpha _ _ ha
  obtain ⟨st, hst⟩ := emLoop_term alpha c ha
  have h0 := hst 0
  rw [discover, h0]
  rfl

/-- C1 witness: instance at fixture B with threshold 1. -/
theorem em_discover_always_halts_witness :
    denseIds fixtureB ∧ noDupPairs fixtureB ∧ (0 : ℚ) < 1 ∧
    (discover fixtureB 1 2).isSome :=
  ⟨by decide, by decide, by norm_num,
    em_discover_always_halts fixtureB 1 (by decide) (by decide)
      (by norm_num)⟩
